import Mathlib

/-!
Shallow embedding of the CO-Monitor-Gateway ingestion pipeline.

The definitions below are translated from the repository's Python sources:
* `src/Part 1/rec_API_more_diag copy.py` — `APIReceiver._read_api_frame`,
  `APIReceiver._unescape_data`, `APIReceiver._process_rx_packet`;
* `src/Part 2/thingspeak_api_receiver.py` — `APIReceiver.verify_received_frame`;
* `src/thingspeak_api_receiver.py` — `APIReceiver.parse_data`,
  `APIReceiver._data_received_callback_multi` (duplicate suppression),
  `APIReceiver.process_thingspeak_data` (queue/buffer/flush loop),
  `ThingSpeakClient.__init__` / `ThingSpeakClient.send_data`.

Bytes are modelled as `Nat` (every value the code stores in a byte is below
256; the arithmetic in the sources is plain Python integer arithmetic with an
explicit `& 0xFF`, which appears here as `% 256`).  Wall-clock instants are
modelled as rationals.  Strings handed to the reading parser are modelled as
`List Char`.
-/

namespace COMonGateway

/-! ### Frame decoder (`APIReceiver._read_api_frame`) -/

/-- The buffer-scanning loop of `_read_api_frame`, fuel-indexed: one unit of
fuel per loop iteration.  The Python loop runs `while len(self.buffer) > 3`;
each iteration either pops a leading non-delimiter byte, stops on an
incomplete frame, returns the first checksum-valid frame's payload
(`frame[3:total_frame_size-1]`), or discards a checksum-invalid frame and
continues.  Every iteration shortens the buffer, so `fuel = buffer length`
always suffices. -/
def frameScan : Nat → List Nat → Option (List Nat) × List Nat
  | 0, buf => (none, buf)
  | fuel + 1, b0 :: b1 :: b2 :: b3 :: rest =>
    if b0 = 0x7E then
      if (b0 :: b1 :: b2 :: b3 :: rest).length < b1 * 256 + b2 + 4 then
        (none, b0 :: b1 :: b2 :: b3 :: rest)
      else if 0xFF - ((((b0 :: b1 :: b2 :: b3 :: rest).drop 3).take (b1 * 256 + b2)).sum % 256)
          = ((b0 :: b1 :: b2 :: b3 :: rest).take (b1 * 256 + b2 + 4)).getLastD 0 then
        (some (((b0 :: b1 :: b2 :: b3 :: rest).drop 3).take (b1 * 256 + b2)),
          (b0 :: b1 :: b2 :: b3 :: rest).drop (b1 * 256 + b2 + 4))
      else
        frameScan fuel ((b0 :: b1 :: b2 :: b3 :: rest).drop (b1 * 256 + b2 + 4))
    else
      frameScan fuel (b1 :: b2 :: b3 :: rest)
  | _ + 1, buf => (none, buf)

/-- One full scan of the persistent buffer (the loop of `_read_api_frame`
run to completion on the current buffer). -/
def frameStep (buf : List Nat) : Option (List Nat) × List Nat :=
  frameScan buf.length buf

/-- One call of `_read_api_frame`: newly available bytes are appended to the
persistent buffer and the buffer is scanned once.  With no new bytes the
method returns `None` immediately (`if not self.uart.any(): return None`)
without touching the buffer. -/
def read_api_frame (buf newData : List Nat) : Option (List Nat) × List Nat :=
  if newData = [] then (none, buf) else frameStep (buf ++ newData)

/-- Feeding the byte sequence one byte per `_read_api_frame` call, collecting
the payload (if any) that each call emits. -/
def feedBytewise : List Nat → List Nat → List (List Nat)
  | _, [] => []
  | buf, b :: bs =>
    match read_api_frame buf [b] with
    | (some p, buf2) => p :: feedBytewise buf2 bs
    | (none, buf2) => feedBytewise buf2 bs

/-- Repeated scans of a buffer until no further frame is produced,
fuel-indexed (each produced frame consumes at least four buffered bytes, so
`fuel = buffer length` always suffices). -/
def drainFuel : Nat → List Nat → List (List Nat)
  | 0, _ => []
  | fuel + 1, buf =>
    match frameStep buf with
    | (some p, buf2) => p :: drainFuel fuel buf2
    | (none, _) => []

/-- All payloads obtainable from a single all-at-once feed by repeatedly
re-scanning the retained buffer. -/
def drainAll (bs : List Nat) : List (List Nat) :=
  drainFuel bs.length bs

/-! ### Frame verification (`APIReceiver.verify_received_frame`,
`src/Part 2/thingspeak_api_receiver.py`) -/

/-- The validity verdict of `verify_received_frame`: start delimiter, exact
declared length, and `0xFF - (sum(frame_data) & 0xFF)` against the trailing
byte.  Frames shorter than 5 bytes are rejected up front. -/
def verify_received_frame (frame : List Nat) : Bool :=
  if frame.length < 5 then false
  else if frame.headD 0 ≠ 0x7E then false
  else if frame.length ≠ (frame.getD 1 0) * 256 + (frame.getD 2 0) + 4 then false
  else decide
    (0xFF - (((frame.drop 3).dropLast).sum % 256) = frame.getLastD 0)

/-! ### Payload unescaping (`APIReceiver._unescape_data`) -/

/-- `_unescape_data`: each `0x7D` consumes the following byte and XORs it
with `0x20`; a trailing `0x7D` with no following byte is skipped
(`i += 1` with no append) and the result so far is returned. -/
def unescape_data : List Nat → List Nat
  | [] => []
  | b :: rest =>
    if b = 0x7D then
      match rest with
      | nxt :: rest2 => (nxt ^^^ 0x20) :: unescape_data rest2
      | [] => []
    else b :: unescape_data rest

/-- Unescaping as the claim states it, written from the claim's words for
comparison with `unescape_data`: a payload whose final byte is a lone escape
byte is malformed and the frame is discarded (no application data). -/
def claimUnescape : List Nat → Option (List Nat)
  | [] => some []
  | b :: rest =>
    if b = 0x7D then
      match rest with
      | nxt :: rest2 => (claimUnescape rest2).map (fun l => (nxt ^^^ 0x20) :: l)
      | [] => none
    else (claimUnescape rest).map (fun l => b :: l)

/-- Tokenised view of an escaped byte string: a literal (non-escape) byte, or
an escape byte together with the byte it consumes. -/
inductive EscTok where
  | lit (c : Nat)
  | esc (b : Nat)

/-- The wire bytes of one token. -/
def EscTok.render : EscTok → List Nat
  | .lit c => [c]
  | .esc b => [0x7D, b]

/-- The unescaped byte of one token. -/
def EscTok.value : EscTok → Nat
  | .lit c => c
  | .esc b => b ^^^ 0x20

/-- A literal token must not itself be the escape byte. -/
def EscTok.good : EscTok → Bool
  | .lit c => c ≠ 0x7D
  | .esc _ => true

/-! ### Payload extraction (`APIReceiver._process_rx_packet`) -/

/-- `_process_rx_packet`, restricted to the byte-slicing it performs: dispatch
on the first payload byte, check the minimum length for that frame type, and
return the RF-data slice (`frame_data[12:]` for 0x90, `frame_data[5:]` for
0x81, `frame_data[11:]` for 0x80).  The source further decodes the slice as
UTF-8; that step is not needed by the claims about the slicing. -/
def process_rx_packet (frameData : List Nat) : Option (List Nat) :=
  match frameData with
  | [] => none
  | ftype :: _ =>
    if ftype = 0x90 then
      if frameData.length < 12 then none else some (frameData.drop 12)
    else if ftype = 0x81 then
      if frameData.length < 5 then none else some (frameData.drop 5)
    else if ftype = 0x80 then
      if frameData.length < 11 then none else some (frameData.drop 11)
    else none

/-- Extraction with the header widths exactly as the claim words them (after
the tag: 8-byte address plus one status byte for 0x80, 2-byte address plus
one status byte for 0x81, 8-byte address plus 2-byte network address plus one
options byte for 0x90); written from the claim's words for comparison with
`process_rx_packet`. -/
def claimHeaderExtract (frameData : List Nat) : Option (List Nat) :=
  match frameData with
  | [] => none
  | ftype :: _ =>
    if ftype = 0x90 then
      if frameData.length < 12 then none else some (frameData.drop 12)
    else if ftype = 0x81 then
      if frameData.length < 4 then none else some (frameData.drop 4)
    else if ftype = 0x80 then
      if frameData.length < 10 then none else some (frameData.drop 10)
    else none

/-! ### Reading parser (`APIReceiver.parse_data`) -/

/-- Python `str.split(sep)` for a single-character separator. -/
def splitOnChar (sep : Char) : List Char → List (List Char)
  | [] => [[]]
  | c :: rest =>
    match splitOnChar sep rest with
    | [] => [[]]
    | g :: gs => if c = sep then [] :: g :: gs else (c :: g) :: gs

/-- Python `str.startswith`. -/
def startsWithChars (pre cs : List Char) : Bool :=
  cs.take pre.length = pre

/-- Numeric value of a digit string (most significant first). -/
def digitsVal (cs : List Char) : Nat :=
  cs.foldl (fun a c => a * 10 + (c.toNat - 48)) 0

/-- All characters are decimal digits. -/
def allDigits (cs : List Char) : Bool :=
  cs.all (fun c => c.isDigit)

/-- Unsigned part of Python's `float` builtin on the decimal literals this
repository exchanges: digits with at most one decimal point, at least one
digit overall (no exponent, underscore, infinity or nan forms, which never
occur in the gateway's data strings). -/
def pyFloatUnsigned (cs : List Char) : Option ℚ :=
  let intPart := cs.takeWhile (fun c => c ≠ '.')
  match cs.dropWhile (fun c => c ≠ '.') with
  | [] =>
    if intPart ≠ [] ∧ allDigits intPart then some (digitsVal intPart) else none
  | _ :: frac =>
    if (intPart ≠ [] ∨ frac ≠ []) ∧ allDigits intPart ∧ allDigits frac then
      some ((digitsVal intPart : ℚ) + (digitsVal frac : ℚ) / (10 : ℚ) ^ frac.length)
    else none

/-- Python's `float` builtin on the decimal subset, with optional sign. -/
def pyFloat : List Char → Option ℚ
  | '-' :: rest => (pyFloatUnsigned rest).map (fun q => -q)
  | '+' :: rest => pyFloatUnsigned rest
  | cs => pyFloatUnsigned cs

/-- `parse_data`: check the literal `DATA:` prefix, split on commas, and read
the value of each of the first three comma fields positionally —
`parts[0].split(':')[2]`, `parts[1].split(':')[1]`, `parts[2].split(':')[1]`
— through `float`.  `IndexError` and `ValueError` are caught and yield
`None`, which the `Option` plumbing reproduces. -/
def parse_data (cs : List Char) : Option (ℚ × ℚ × ℚ) :=
  if startsWithChars "DATA:".toList cs then
    match (splitOnChar ',' cs)[0]? with
    | none => none
    | some tempPart =>
      match (splitOnChar ':' tempPart)[2]? with
      | none => none
      | some tstr =>
        match pyFloat tstr with
        | none => none
        | some temperature =>
          match (splitOnChar ',' cs)[1]? with
          | none => none
          | some humPart =>
            match (splitOnChar ':' humPart)[1]? with
            | none => none
            | some hstr =>
              match pyFloat hstr with
              | none => none
              | some humidity =>
                match (splitOnChar ',' cs)[2]? with
                | none => none
                | some ppmPart =>
                  match (splitOnChar ':' ppmPart)[1]? with
                  | none => none
                  | some pstr =>
                    match pyFloat pstr with
                    | none => none
                    | some ppm => some (temperature, humidity, ppm)
  else none

/-- A field chunk that the comma/colon splitting passes through unchanged. -/
def plainField (cs : List Char) : Bool :=
  decide (':' ∉ cs) && decide (',' ∉ cs)

/-! ### Duplicate suppression (`APIReceiver._data_received_callback_multi`) -/

/-- The per-node duplicate-tracking dictionaries `self.last_frame_ids` and
`self.last_frame_times`, modelled as association lists with the newest
binding first (Python dictionary assignment replaces the binding; lookups
here read the newest one). -/
structure DedupState where
  lastIds : List (String × List Nat)
  lastTimes : List (String × ℚ)
deriving DecidableEq

/-- Both dictionaries empty (state before any message). -/
def emptyDedup : DedupState := ⟨[], []⟩

/-- The suppression test of `_data_received_callback_multi`: the sender has an
entry in both dictionaries, the stored bytes equal the incoming bytes, and
strictly less than 1.0 second elapsed since the stored time. -/
def dedupCheck (st : DedupState) (sender : String) (payload : List Nat) (now : ℚ) : Bool :=
  match st.lastIds.lookup sender, st.lastTimes.lookup sender with
  | some pid, some pt => decide (pid = payload ∧ now - pt < 1)
  | _, _ => false

/-- Processing one message: a suppressed message returns early leaving both
dictionaries untouched; an accepted message records its bytes and arrival
time for its sender.  The `Bool` is `true` when the message is accepted. -/
def dedupStep (st : DedupState) (sender : String) (payload : List Nat) (now : ℚ) :
    Bool × DedupState :=
  if dedupCheck st sender payload now then
    (false, st)
  else
    (true,
      { lastIds := (sender, payload) :: st.lastIds,
        lastTimes := (sender, now) :: st.lastTimes })

/-- A delivered message: sender, raw payload bytes, arrival time. -/
abbrev Msg := String × List Nat × ℚ

/-- Run the deduplicator over a message sequence, returning the accepted
messages and the final state. -/
def dedupRunSt : DedupState → List Msg → List Msg × DedupState
  | st, [] => ([], st)
  | st, (s, p, t) :: ms =>
    let r := dedupStep st s p t
    let rest := dedupRunSt r.2 ms
    (if r.1 then (s, p, t) :: rest.1 else rest.1, rest.2)

/-- The accepted messages of a sequence delivered to a fresh receiver. -/
def dedupAccepted (ms : List Msg) : List Msg :=
  (dedupRunSt emptyDedup ms).1

/-- An unbroken stream of `n` byte-identical messages from one sender,
arriving every 0.9 seconds starting at time 0. -/
def periodicMsgs (s : String) (p : List Nat) (n : Nat) : List Msg :=
  (List.range n).map (fun k : Nat => (s, p, (9 / 10 : ℚ) * (k : ℚ)))

/-! ### Aggregator hand-off (`process_thingspeak_data` and the callback's
`self.data_queue.put`) -/

/-- A queued reading: `(temperature, humidity, ppm, temperatureF)` as put by
the receive callback. -/
abbrev Reading := ℚ × ℚ × ℚ × ℚ

/-- The atomic operations on the shared structures: `record` is the
callback's `data_queue.put`; `drainOne` is one successful
`data_queue.get` of the upload loop (moving the head of the queue into the
thread-local `data_buffer`); `flush` is the due-and-non-empty branch that
averages `data_buffer` and resets it to `[]`. -/
inductive AggAction where
  | record (r : Reading)
  | drainOne
  | flush
deriving DecidableEq

/-- Queue contents, upload-thread buffer contents, and the batches averaged
by past flushes. -/
structure AggState where
  queue : List Reading
  buffer : List Reading
  flushes : List (List Reading)
deriving DecidableEq

/-- Effect of one atomic operation (`queue.Queue` is linearizable, so an
interleaved execution is a sequence of these). -/
def aggStep (st : AggState) : AggAction → AggState
  | .record r => { st with queue := st.queue ++ [r] }
  | .drainOne =>
    match st.queue with
    | [] => st
    | r :: rest => { st with queue := rest, buffer := st.buffer ++ [r] }
  | .flush =>
    if st.buffer = [] then st
    else { st with buffer := [], flushes := st.flushes ++ [st.buffer] }

/-- Initial state: empty queue, empty buffer, no flushes yet. -/
def aggInit : AggState := ⟨[], [], []⟩

/-- The state reached by an interleaving of operations. -/
def aggRun (acts : List AggAction) : AggState :=
  acts.foldl aggStep aggInit

/-- How many times a given reading was recorded in an interleaving. -/
def countRecord (acts : List AggAction) (r : Reading) : Nat :=
  acts.count (AggAction.record r)

/-- How many times a given reading occurs across all flushed batches. -/
def flushCount (st : AggState) (r : Reading) : Nat :=
  (st.flushes.map (fun b => b.count r)).sum

/-! ### Rate-limited forwarder (`ThingSpeakClient`,
`src/thingspeak_api_receiver.py`) -/

/-- `self.min_interval = 20` from `ThingSpeakClient.__init__`. -/
def min_interval : ℚ := 20

/-- The fixed upload period of `process_thingspeak_data`
(`current_time - last_upload_time >= 15`). -/
def flush_interval : ℚ := 15

/-- The sleep performed by `send_data` before the upstream call: if less than
`min_interval` elapsed since `last_update_time`, sleep exactly the remaining
time, otherwise do not sleep. -/
def sendWait (lastUpdate now : ℚ) : ℚ :=
  if now - lastUpdate < min_interval then min_interval - (now - lastUpdate) else 0

/-- Result of the upstream `channel.update` call: a response value, or an
exception propagating out of it. -/
inductive UpdateOutcome where
  | resp (r : ℤ)
  | exc

/-- The code's success criterion: any non-zero response. -/
def isSuccess : UpdateOutcome → Bool
  | .resp r => r != 0
  | .exc => false

/-- `ThingSpeakClient.send_data`, with the upstream call abstracted by its
outcome and the clock reading taken after the call abstracted by `tEnd`:
returns the value the method returns, the new `last_update_time`, and the
rate-limit wait it performed.  On a zero response or an exception the method
returns `None` without touching `last_update_time`; only on a non-zero
response does it set `last_update_time` to the post-call time. -/
def send_data (lastUpdate now : ℚ) (outcome : UpdateOutcome) (tEnd : ℚ) :
    Option ℤ × ℚ × ℚ :=
  let wait := sendWait lastUpdate now
  match outcome with
  | .exc => (none, lastUpdate, wait)
  | .resp r => if r = 0 then (none, lastUpdate, wait) else (some r, tEnd, wait)

/-! ## Frame decoder: basic scanning lemmas -/

theorem frameScan_nil (f : Nat) : frameScan f [] = (none, []) := by
  cases f <;> rfl

theorem frameScan_short (f : Nat) (buf : List Nat) (h : buf.length ≤ 3) :
    frameScan f buf = (none, buf) := by
  cases f with
  | zero => rfl
  | succ f =>
    rcases buf with _ | ⟨a, _ | ⟨b, _ | ⟨c, _ | ⟨d, tl⟩⟩⟩⟩
    · rfl
    · rfl
    · rfl
    · rfl
    · simp only [List.length_cons] at h; omega

theorem frameScan_congr : ∀ f g : Nat, ∀ buf : List Nat,
    buf.length ≤ f → buf.length ≤ g → frameScan f buf = frameScan g buf := by
  intro f
  induction f with
  | zero =>
    intro g buf hf _
    have hb : buf = [] := List.eq_nil_of_length_eq_zero (Nat.le_zero.mp hf)
    subst hb
    rw [frameScan_nil, frameScan_nil]
  | succ f ih =>
    intro g buf hf hg
    rcases buf with _ | ⟨b0, _ | ⟨b1, _ | ⟨b2, _ | ⟨b3, rest⟩⟩⟩⟩
    · rw [frameScan_nil, frameScan_nil]
    · rw [frameScan_short _ _ (by simp), frameScan_short _ _ (by simp)]
    · rw [frameScan_short _ _ (by simp), frameScan_short _ _ (by simp)]
    · rw [frameScan_short _ _ (by simp), frameScan_short _ _ (by simp)]
    · simp only [List.length_cons] at hf hg
      obtain ⟨g', rfl⟩ : ∃ g', g = g' + 1 := ⟨g - 1, by omega⟩
      simp only [frameScan]
      by_cases h7 : b0 = 0x7E
      · simp only [if_pos h7]
        by_cases hlen : (b0 :: b1 :: b2 :: b3 :: rest).length < b1 * 256 + b2 + 4
        · simp only [if_pos hlen]
        · simp only [if_neg hlen]
          by_cases hck : 0xFF -
                ((((b0 :: b1 :: b2 :: b3 :: rest).drop 3).take (b1 * 256 + b2)).sum % 256)
              = ((b0 :: b1 :: b2 :: b3 :: rest).take (b1 * 256 + b2 + 4)).getLastD 0
          · simp only [if_pos hck]
          · simp only [if_neg hck]
            refine ih g' _ ?_ ?_ <;> simp only [List.length_drop, List.length_cons] <;> omega
      · simp only [if_neg h7]
        exact ih g' _ (by simp only [List.length_cons]; omega)
          (by simp only [List.length_cons]; omega)

theorem frameStep_nil : frameStep [] = (none, []) := rfl

theorem frameStep_short (buf : List Nat) (h : buf.length ≤ 3) :
    frameStep buf = (none, buf) :=
  frameScan_short _ _ h

theorem frameStep_garbage (b0 b1 b2 b3 : Nat) (rest : List Nat) (h : b0 ≠ 0x7E) :
    frameStep (b0 :: b1 :: b2 :: b3 :: rest) = frameStep (b1 :: b2 :: b3 :: rest) := by
  simp only [frameStep, List.length_cons, frameScan, if_neg h]

theorem frameStep_delim (b1 b2 b3 : Nat) (rest : List Nat) :
    frameStep (0x7E :: b1 :: b2 :: b3 :: rest) =
      if (0x7E :: b1 :: b2 :: b3 :: rest).length < b1 * 256 + b2 + 4 then
        (none, 0x7E :: b1 :: b2 :: b3 :: rest)
      else if 0xFF - ((((0x7E :: b1 :: b2 :: b3 :: rest).drop 3).take (b1 * 256 + b2)).sum % 256)
          = ((0x7E :: b1 :: b2 :: b3 :: rest).take (b1 * 256 + b2 + 4)).getLastD 0 then
        (some (((0x7E :: b1 :: b2 :: b3 :: rest).drop 3).take (b1 * 256 + b2)),
          (0x7E :: b1 :: b2 :: b3 :: rest).drop (b1 * 256 + b2 + 4))
      else frameStep ((0x7E :: b1 :: b2 :: b3 :: rest).drop (b1 * 256 + b2 + 4)) := by
  simp only [frameStep, List.length_cons, frameScan, if_pos rfl]
  split_ifs <;>
    first
      | rfl
      | (refine frameScan_congr _ _ _ ?_ ?_ <;>
          simp only [List.length_drop, List.length_cons] <;> omega)

theorem frameScan_snd_le : ∀ (f : Nat) (buf : List Nat),
    ((frameScan f buf).2).length ≤ buf.length := by
  intro f
  induction f with
  | zero => intro buf; cases buf <;> simp [frameScan]
  | succ f ih =>
    intro buf
    rcases buf with _ | ⟨b0, _ | ⟨b1, _ | ⟨b2, _ | ⟨b3, rest⟩⟩⟩⟩
    · rw [frameScan_nil]
    · rw [frameScan_short _ _ (by simp)]
    · rw [frameScan_short _ _ (by simp)]
    · rw [frameScan_short _ _ (by simp)]
    · simp only [frameScan]
      split_ifs
      · simp
      · simp only [List.length_drop]; omega
      · exact le_trans (ih _) (by simp only [List.length_drop]; omega)
      · exact le_trans (ih _) (by simp only [List.length_cons]; omega)

theorem frameStep_snd_le (buf : List Nat) : ((frameStep buf).2).length ≤ buf.length :=
  frameScan_snd_le _ _

theorem frameScan_some_len : ∀ (f : Nat) (buf : List Nat) (p buf2 : List Nat),
    frameScan f buf = (some p, buf2) → buf2.length + 4 ≤ buf.length := by
  intro f
  induction f with
  | zero => intro buf p buf2 h; simp [frameScan] at h
  | succ f ih =>
    intro buf p buf2 h
    rcases buf with _ | ⟨b0, _ | ⟨b1, _ | ⟨b2, _ | ⟨b3, rest⟩⟩⟩⟩
    · rw [frameScan_nil] at h; simp at h
    · rw [frameScan_short _ _ (by simp)] at h; simp at h
    · rw [frameScan_short _ _ (by simp)] at h; simp at h
    · rw [frameScan_short _ _ (by simp)] at h; simp at h
    · simp only [frameScan] at h
      split_ifs at h with h7 hlen hck
      · simp at h
      · rw [Prod.mk.injEq] at h
        obtain ⟨-, rfl⟩ := h
        simp only [List.length_drop, List.length_cons] at hlen ⊢
        omega
      · exact le_trans (ih _ _ _ h) (by simp only [List.length_drop]; omega)
      · exact le_trans (ih _ _ _ h) (by simp only [List.length_cons]; omega)

theorem frameStep_some_len (buf p buf2 : List Nat) (h : frameStep buf = (some p, buf2)) :
    buf2.length + 4 ≤ buf.length :=
  frameScan_some_len _ _ _ _ h

/-- Scanning a buffer extended on the right relates to scanning the original
buffer: a produced frame is unaffected by the extension, and an unproductive
scan leaves a residue whose extension scans the same way. -/
theorem frameStep_ext : ∀ (n : Nat) (buf E : List Nat), buf.length ≤ n →
    frameStep (buf ++ E) =
      (match frameStep buf with
        | (some p, buf2) => (some p, buf2 ++ E)
        | (none, buf2) => frameStep (buf2 ++ E)) := by
  intro n
  induction n with
  | zero =>
    intro buf E hle
    have hb : buf = [] := List.eq_nil_of_length_eq_zero (Nat.le_zero.mp hle)
    subst hb
    rw [frameStep_nil]
  | succ n ih =>
    intro buf E hle
    rcases buf with _ | ⟨b0, _ | ⟨b1, _ | ⟨b2, _ | ⟨b3, rest⟩⟩⟩⟩
    · rw [frameStep_nil]
    · rw [frameStep_short [b0] (by simp)]
    · rw [frameStep_short [b0, b1] (by simp)]
    · rw [frameStep_short [b0, b1, b2] (by simp)]
    · simp only [List.length_cons] at hle
      have hcons : (b0 :: b1 :: b2 :: b3 :: rest) ++ E
          = b0 :: b1 :: b2 :: b3 :: (rest ++ E) := by simp
      by_cases h7 : b0 = 0x7E
      · subst h7
        by_cases hlen : (0x7E :: b1 :: b2 :: b3 :: rest).length < b1 * 256 + b2 + 4
        · rw [frameStep_delim b1 b2 b3 rest, if_pos hlen]
        · have hlen' : ¬ ((0x7E :: b1 :: b2 :: b3 :: (rest ++ E)).length
              < b1 * 256 + b2 + 4) := by
            simp only [List.length_cons, List.length_append] at hlen ⊢
            omega
          have hA : (b3 :: (rest ++ E)).take (b1 * 256 + b2)
              = (b3 :: rest).take (b1 * 256 + b2) := by
            have := @List.take_append_of_le_length Nat (b3 :: rest) E (b1 * 256 + b2)
              (by simp only [List.length_cons] at hlen ⊢; omega)
            simpa using this
          have hB : (0x7E :: b1 :: b2 :: b3 :: (rest ++ E)).take (b1 * 256 + b2 + 4)
              = (0x7E :: b1 :: b2 :: b3 :: rest).take (b1 * 256 + b2 + 4) := by
            have := @List.take_append_of_le_length Nat
              (0x7E :: b1 :: b2 :: b3 :: rest) E (b1 * 256 + b2 + 4)
              (by simp only [List.length_cons] at hlen ⊢; omega)
            simpa using this
          have hC : (0x7E :: b1 :: b2 :: b3 :: (rest ++ E)).drop (b1 * 256 + b2 + 4)
              = ((0x7E :: b1 :: b2 :: b3 :: rest).drop (b1 * 256 + b2 + 4)) ++ E := by
            have := @List.drop_append_of_le_length Nat
              (0x7E :: b1 :: b2 :: b3 :: rest) E (b1 * 256 + b2 + 4)
              (by simp only [List.length_cons] at hlen ⊢; omega)
            simpa using this
          have hD3 : ∀ (x y z : ℕ) (l : List ℕ), List.drop 3 (x :: y :: z :: l) = l :=
            fun _ _ _ _ => rfl
          rw [hcons, frameStep_delim b1 b2 b3 (rest ++ E), if_neg hlen',
            frameStep_delim b1 b2 b3 rest, if_neg hlen, hD3, hD3, hA, hB, hC]
          by_cases hck : 0xFF - (((b3 :: rest).take (b1 * 256 + b2)).sum % 256)
              = ((0x7E :: b1 :: b2 :: b3 :: rest).take (b1 * 256 + b2 + 4)).getLastD 0
          · rw [if_pos hck, if_pos hck]
          · rw [if_neg hck, if_neg hck]
            exact ih ((0x7E :: b1 :: b2 :: b3 :: rest).drop (b1 * 256 + b2 + 4)) E
              (by simp only [List.length_drop, List.length_cons]; omega)
      · rw [frameStep_garbage _ _ _ _ _ h7, hcons, frameStep_garbage _ _ _ _ _ h7]
        exact ih (b1 :: b2 :: b3 :: rest) E (by simp only [List.length_cons]; omega)

/-- A buffer on which a scan makes no progress: no leading byte is dropped
and no frame is produced or discarded.  This is the state of the persistent
buffer between `_read_api_frame` calls. -/
def Quiescent (buf : List Nat) : Prop := frameStep buf = (none, buf)

theorem quiescent_nil : Quiescent [] := frameStep_nil

theorem quiescent_iff (buf : List Nat) :
    Quiescent buf ↔ buf.length ≤ 3 ∨
      ∃ b1 b2 b3 rest, buf = 0x7E :: b1 :: b2 :: b3 :: rest ∧
        buf.length < b1 * 256 + b2 + 4 := by
  constructor
  · intro h
    rcases buf with _ | ⟨b0, _ | ⟨b1, _ | ⟨b2, _ | ⟨b3, rest⟩⟩⟩⟩
    · left; simp
    · left; simp
    · left; simp
    · left; simp
    · right
      by_cases h7 : b0 = 0x7E
      · subst h7
        refine ⟨b1, b2, b3, rest, rfl, ?_⟩
        by_contra hlen
        rw [Quiescent, frameStep_delim b1 b2 b3 rest, if_neg hlen] at h
        split_ifs at h with hck
        · exact Option.some_ne_none _ (congrArg Prod.fst h)
        · have hle := frameStep_snd_le
            ((0x7E :: b1 :: b2 :: b3 :: rest).drop (b1 * 256 + b2 + 4))
          rw [h] at hle
          simp only [List.length_drop, List.length_cons] at hle hlen
          omega
      · exfalso
        rw [Quiescent, frameStep_garbage _ _ _ _ _ h7] at h
        have hle := frameStep_snd_le (b1 :: b2 :: b3 :: rest)
        rw [h] at hle
        simp only [List.length_cons] at hle
        omega
  · intro h
    rcases h with h | ⟨b1, b2, b3, rest, rfl, hlen⟩
    · exact frameStep_short _ h
    · rw [Quiescent, frameStep_delim b1 b2 b3 rest, if_pos hlen]

/-- Appending one byte to a quiescent buffer: either the byte completes a
valid frame whose emission empties the buffer, or the scan is again
unproductive and its residue is again quiescent. -/
theorem quiescent_append_byte (buf : List Nat) (hq : Quiescent buf) (b : Nat) :
    (∃ p, frameStep (buf ++ [b]) = (some p, [])) ∨
    (∃ buf2, frameStep (buf ++ [b]) = (none, buf2) ∧ Quiescent buf2) := by
  rcases (quiescent_iff buf).mp hq with hshort | ⟨b1, b2, b3, rest, rfl, hlen⟩
  · rcases buf with _ | ⟨x, _ | ⟨y, _ | ⟨z, _ | ⟨w, tl⟩⟩⟩⟩
    · right
      refine ⟨[b], ?_, (quiescent_iff _).mpr (Or.inl (by simp))⟩
      simpa using frameStep_short [b] (by simp)
    · right
      refine ⟨[x, b], ?_, (quiescent_iff _).mpr (Or.inl (by simp))⟩
      simpa using frameStep_short [x, b] (by simp)
    · right
      refine ⟨[x, y, b], ?_, (quiescent_iff _).mpr (Or.inl (by simp))⟩
      simpa using frameStep_short [x, y, b] (by simp)
    · -- three bytes and a fourth arrives
      have hform : [x, y, z] ++ [b] = x :: y :: z :: b :: [] := by simp
      by_cases h7 : x = 0x7E
      · subst h7
        rw [hform]
        by_cases hflen : (0x7E :: y :: z :: b :: ([] : List Nat)).length
            < y * 256 + z + 4
        · right
          refine ⟨_, ?_, (quiescent_iff _).mpr (Or.inr ⟨y, z, b, [], rfl, hflen⟩)⟩
          rw [frameStep_delim y z b [], if_pos hflen]
        · -- the length field must be zero: a complete zero-payload frame
          by_cases hck : 0xFF -
                ((((0x7E :: y :: z :: b :: ([] : List Nat)).drop 3).take (y * 256 + z)).sum
                  % 256)
              = ((0x7E :: y :: z :: b :: ([] : List Nat)).take (y * 256 + z + 4)).getLastD 0
          · left
            have hnil : (0x7E :: y :: z :: b :: ([] : List Nat)).drop (y * 256 + z + 4)
                = [] :=
              List.drop_eq_nil_of_le
                (by simp only [List.length_cons, List.length_nil] at hflen ⊢; omega)
            refine ⟨((0x7E :: y :: z :: b :: ([] : List Nat)).drop 3).take (y * 256 + z), ?_⟩
            rw [frameStep_delim y z b [], if_neg hflen, if_pos hck, hnil]
          · right
            have hnil : (0x7E :: y :: z :: b :: ([] : List Nat)).drop (y * 256 + z + 4)
                = [] :=
              List.drop_eq_nil_of_le
                (by simp only [List.length_cons, List.length_nil] at hflen ⊢; omega)
            refine ⟨[], ?_, quiescent_nil⟩
            rw [frameStep_delim y z b [], if_neg hflen, if_neg hck, hnil]
            exact frameStep_nil
      · -- a leading non-delimiter byte is dropped once four bytes are buffered
        right
        refine ⟨[y, z, b], ?_, (quiescent_iff _).mpr (Or.inl (by simp))⟩
        rw [hform, frameStep_garbage x y z b [] h7]
        exact frameStep_short _ (by simp)
    · simp only [List.length_cons, List.length_nil] at hshort; omega
  · -- a pending incomplete frame grows by one byte
    have hform : (0x7E :: b1 :: b2 :: b3 :: rest) ++ [b]
        = 0x7E :: b1 :: b2 :: b3 :: (rest ++ [b]) := by simp
    simp only [List.length_cons] at hlen
    rw [hform]
    by_cases hflen : (0x7E :: b1 :: b2 :: b3 :: (rest ++ [b])).length < b1 * 256 + b2 + 4
    · right
      refine ⟨_, ?_, (quiescent_iff _).mpr (Or.inr ⟨b1, b2, b3, rest ++ [b], rfl, hflen⟩)⟩
      rw [frameStep_delim b1 b2 b3 (rest ++ [b]), if_pos hflen]
    · -- the new byte completes the frame exactly
      have hfull : (0x7E :: b1 :: b2 :: b3 :: (rest ++ [b])).length = b1 * 256 + b2 + 4 := by
        simp only [List.length_cons, List.length_append, List.length_singleton,
          List.length_nil] at hflen hlen ⊢
        omega
      rw [frameStep_delim b1 b2 b3 (rest ++ [b]), if_neg hflen]
      by_cases hck : 0xFF -
            ((((0x7E :: b1 :: b2 :: b3 :: (rest ++ [b])).drop 3).take (b1 * 256 + b2)).sum
              % 256)
          = ((0x7E :: b1 :: b2 :: b3 :: (rest ++ [b])).take (b1 * 256 + b2 + 4)).getLastD 0
      · left
        have hnil : (0x7E :: b1 :: b2 :: b3 :: (rest ++ [b])).drop (b1 * 256 + b2 + 4)
            = [] :=
          List.drop_eq_nil_of_le (le_of_eq hfull)
        refine ⟨((0x7E :: b1 :: b2 :: b3 :: (rest ++ [b])).drop 3).take (b1 * 256 + b2), ?_⟩
        rw [if_pos hck, hnil]
      · right
        have hnil : (0x7E :: b1 :: b2 :: b3 :: (rest ++ [b])).drop (b1 * 256 + b2 + 4)
            = [] :=
          List.drop_eq_nil_of_le (le_of_eq hfull)
        rw [if_neg hck, hnil]
        exact ⟨[], frameStep_nil, quiescent_nil⟩

theorem drainFuel_congr : ∀ (f g : Nat) (buf : List Nat),
    buf.length ≤ f → buf.length ≤ g → drainFuel f buf = drainFuel g buf := by
  intro f
  induction f with
  | zero =>
    intro g buf hf _
    have hb : buf = [] := List.eq_nil_of_length_eq_zero (Nat.le_zero.mp hf)
    subst hb
    cases g with
    | zero => rfl
    | succ g => simp [drainFuel, frameStep_nil]
  | succ f ih =>
    intro g buf hf hg
    cases g with
    | zero =>
      have hb : buf = [] := List.eq_nil_of_length_eq_zero (Nat.le_zero.mp hg)
      subst hb
      simp [drainFuel, frameStep_nil]
    | succ g =>
      rcases h : frameStep buf with ⟨_ | p, buf2⟩
      · simp [drainFuel, h]
      · have hlen := frameStep_some_len buf p buf2 h
        simp only [drainFuel, h]
        exact congrArg (p :: ·) (ih g buf2 (by omega) (by omega))

theorem drainAll_of_none (buf buf2 : List Nat) (h : frameStep buf = (none, buf2)) :
    drainAll buf = [] := by
  unfold drainAll
  cases hl : buf.length with
  | zero => rfl
  | succ n => simp [drainFuel, h]

theorem drainAll_of_some (buf p buf2 : List Nat) (h : frameStep buf = (some p, buf2)) :
    drainAll buf = p :: drainAll buf2 := by
  have hlen := frameStep_some_len buf p buf2 h
  obtain ⟨n, hn⟩ : ∃ n, buf.length = n + 1 := ⟨buf.length - 1, by omega⟩
  unfold drainAll
  rw [hn]
  simp only [drainFuel, h]
  exact congrArg (p :: ·) (drainFuel_congr n buf2.length buf2 (by omega) (le_refl _))

theorem drainAll_congr_step (X Y : List Nat) (h : frameStep X = frameStep Y) :
    drainAll X = drainAll Y := by
  rcases hX : frameStep X with ⟨o, Z⟩
  cases o with
  | none => rw [drainAll_of_none X Z hX, drainAll_of_none Y Z (h ▸ hX)]
  | some p => rw [drainAll_of_some X p Z hX, drainAll_of_some Y p Z (h ▸ hX)]

/-- Core chunking lemma: starting from any quiescent buffer, feeding bytes
one `_read_api_frame` call at a time produces exactly the payloads that a
single extended buffer yields under repeated scanning. -/
theorem feedBytewise_drain_aux : ∀ (bs buf : List Nat), Quiescent buf →
    feedBytewise buf bs = drainAll (buf ++ bs) := by
  intro bs
  induction bs with
  | nil =>
    intro buf hq
    rw [List.append_nil]
    simp only [feedBytewise]
    exact (drainAll_of_none buf buf hq).symm
  | cons b bs ih =>
    intro buf hq
    have hstep : read_api_frame buf [b] = frameStep (buf ++ [b]) := by
      simp [read_api_frame]
    have hassoc : buf ++ b :: bs = (buf ++ [b]) ++ bs := by simp
    have hext := frameStep_ext (buf ++ [b]).length (buf ++ [b]) bs (le_refl _)
    rcases quiescent_append_byte buf hq b with ⟨p, hsome⟩ | ⟨buf2, hnone, hq2⟩
    · simp only [feedBytewise, hstep, hsome]
      rw [hsome] at hext
      simp only [List.nil_append] at hext
      rw [hassoc, drainAll_of_some _ p bs hext]
      have := ih [] quiescent_nil
      simp only [List.nil_append] at this
      exact congrArg (p :: ·) this
    · simp only [feedBytewise, hstep, hnone]
      rw [hnone] at hext
      rw [hassoc, drainAll_congr_step _ _ hext]
      exact ih buf2 hq2

/-! ## Unfolding helpers for the straight-line definitions -/

theorem unescape_data_cons_lit (c : Nat) (hc : c ≠ 0x7D) (rest : List Nat) :
    unescape_data (c :: rest) = c :: unescape_data rest := by
  cases rest <;> simp [unescape_data, hc]

theorem unescape_data_cons_esc (b : Nat) (rest : List Nat) :
    unescape_data (0x7D :: b :: rest) = (b ^^^ 0x20) :: unescape_data rest := by
  simp [unescape_data]

theorem process_rx_packet_cons (ftype : Nat) (tl : List Nat) :
    process_rx_packet (ftype :: tl) =
      if ftype = 0x90 then
        if (ftype :: tl).length < 12 then none else some ((ftype :: tl).drop 12)
      else if ftype = 0x81 then
        if (ftype :: tl).length < 5 then none else some ((ftype :: tl).drop 5)
      else if ftype = 0x80 then
        if (ftype :: tl).length < 11 then none else some ((ftype :: tl).drop 11)
      else none := rfl

/-! ## Claim theorems -/

/-- C1: a buffered complete frame (start delimiter, 2-byte big-endian length,
payload, trailing byte) is accepted with its payload yielded exactly when the
trailing byte equals `0xFF - (sum(payload) & 0xFF)`; on a mismatch the frame
is discarded and no payload is yielded.  The same checksum criterion decides
`verify_received_frame` for non-empty payloads. -/
theorem frame_checksum_accept_iff (b1 b2 : Nat) (payload : List Nat) (c : Nat)
    (hlen : payload.length = b1 * 256 + b2) :
    (frameStep (0x7E :: b1 :: b2 :: (payload ++ [c]))
        = if 0xFF - (payload.sum % 256) = c then (some payload, []) else (none, [])) ∧
    (payload ≠ [] →
      (verify_received_frame (0x7E :: b1 :: b2 :: (payload ++ [c])) = true
        ↔ 0xFF - (payload.sum % 256) = c)) := by
  have hwhole : 0x7E :: b1 :: b2 :: (payload ++ [c])
      = (0x7E :: b1 :: b2 :: payload) ++ [c] := by simp
  have hlast : (0x7E :: b1 :: b2 :: (payload ++ [c])).getLastD 0 = c := by
    rw [hwhole]; exact List.getLastD_concat _ _ _
  have hlentot : (0x7E :: b1 :: b2 :: (payload ++ [c])).length = b1 * 256 + b2 + 4 := by
    simp only [List.length_cons, List.length_append, List.length_singleton,
      List.length_nil]
    omega
  constructor
  · obtain ⟨b3, rest, he⟩ : ∃ b3 rest, payload ++ [c] = b3 :: rest := by
      cases payload with
      | nil => exact ⟨c, [], rfl⟩
      | cons p0 ptl => exact ⟨p0, ptl ++ [c], rfl⟩
    rw [he, frameStep_delim b1 b2 b3 rest, ← he]
    have hd3 : (0x7E :: b1 :: b2 :: (payload ++ [c])).drop 3 = payload ++ [c] := rfl
    have htk : (payload ++ [c]).take (b1 * 256 + b2) = payload := by
      rw [← hlen]; exact List.take_left _ _
    have htk4 : (0x7E :: b1 :: b2 :: (payload ++ [c])).take (b1 * 256 + b2 + 4)
        = 0x7E :: b1 :: b2 :: (payload ++ [c]) :=
      List.take_of_length_le (le_of_eq hlentot)
    have hdr4 : (0x7E :: b1 :: b2 :: (payload ++ [c])).drop (b1 * 256 + b2 + 4) = [] :=
      List.drop_eq_nil_of_le (le_of_eq hlentot)
    rw [if_neg (by rw [hlentot]; omega), hd3, htk, htk4, hlast, hdr4, frameStep_nil]
  · intro hne
    have hpos : 0 < payload.length := List.length_pos.mpr hne
    have hg1 : (0x7E :: b1 :: b2 :: (payload ++ [c])).getD 1 0 = b1 := rfl
    have hg2 : (0x7E :: b1 :: b2 :: (payload ++ [c])).getD 2 0 = b2 := rfl
    have hd3 : (0x7E :: b1 :: b2 :: (payload ++ [c])).drop 3 = payload ++ [c] := rfl
    unfold verify_received_frame
    rw [if_neg (by rw [hlentot]; omega), if_neg (by simp),
      hg1, hg2, if_neg (by rw [hlentot]; omega), hd3, List.dropLast_concat, hlast]
    exact decide_eq_true_iff

/-- C1 witness: a concrete one-byte-payload frame with a valid checksum. -/
theorem frame_checksum_accept_iff_check :
    ([0x41] : List Nat).length = 0 * 256 + 1 ∧
    ((frameStep (0x7E :: 0 :: 1 :: ([0x41] ++ [0xBE]))
        = if 0xFF - (([0x41] : List Nat).sum % 256) = 0xBE then (some [0x41], [])
          else (none, [])) ∧
    (([0x41] : List Nat) ≠ [] →
      (verify_received_frame (0x7E :: 0 :: 1 :: ([0x41] ++ [0xBE])) = true
        ↔ 0xFF - (([0x41] : List Nat).sum % 256) = 0xBE))) :=
  ⟨by decide, frame_checksum_accept_iff 0 1 [0x41] 0xBE (by decide)⟩

/-- C2 counterexample: a buffer holding two complete valid frames.  Fed one
byte at a time, both payloads are emitted; fed all at once, the single
`_read_api_frame` call emits only the first payload (the second complete
frame stays in the retained buffer because a call with no new UART bytes
returns immediately), so the two accepted-payload sequences differ. -/
theorem chunked_feed_counterexample :
    feedBytewise [] [0x7E, 0, 1, 0x41, 0xBE, 0x7E, 0, 1, 0x42, 0xBD]
        = [[0x41], [0x42]] ∧
    (read_api_frame [] [0x7E, 0, 1, 0x41, 0xBE, 0x7E, 0, 1, 0x42, 0xBD]).1
        = some [0x41] ∧
    (read_api_frame [] [0x7E, 0, 1, 0x41, 0xBE, 0x7E, 0, 1, 0x42, 0xBD]).2
        = [0x7E, 0, 1, 0x42, 0xBD] ∧
    ([[0x41], [0x42]] : List (List Nat)) ≠ [[0x41]] := by decide

/-- C2 (amended): feeding one byte per call emits exactly the payload
sequence that a single all-at-once feed produces once its retained buffer is
repeatedly re-scanned to exhaustion; each individual call emits at most one
frame. -/
theorem bytewise_feed_eq_drained_feed (bs : List Nat) :
    feedBytewise [] bs = drainAll bs := by
  have h := feedBytewise_drain_aux bs [] quiescent_nil
  simpa using h

/-- C8 counterexample: a payload ending in a lone escape byte is not
discarded by `_unescape_data`; the trailing escape byte is silently skipped
and the remaining unescaped data is returned (the claim-version
`claimUnescape` would discard it). -/
theorem trailing_escape_counterexample :
    claimUnescape [0x44, 0x7D] = none ∧
    unescape_data [0x44, 0x7D] = [0x44] ∧
    unescape_data [0x44, 0x7D] ≠ [] := by decide

/-- C8 (amended): each escape byte `0x7D` consumes the following byte and
XORs it with `0x20`, and all other bytes pass through unchanged; a trailing
lone escape byte is silently dropped, with the rest of the payload still
returned as data rather than the frame being discarded. -/
theorem unescape_token_map (ts : List EscTok) (h : ∀ t ∈ ts, t.good = true) :
    unescape_data ((ts.map EscTok.render).flatten) = ts.map EscTok.value ∧
    unescape_data ((ts.map EscTok.render).flatten ++ [0x7D]) = ts.map EscTok.value := by
  induction ts with
  | nil => exact ⟨rfl, rfl⟩
  | cons t ts ih =>
    have ht := h t (by simp)
    have hts := ih (fun t' ht' => h t' (by simp [ht']))
    cases t with
    | lit c =>
      have hc : c ≠ 0x7D := by simpa [EscTok.good] using ht
      refine ⟨?_, ?_⟩
      · simp only [List.map_cons, List.flatten_cons, EscTok.render, EscTok.value,
          List.singleton_append, List.cons_append, List.nil_append]
        rw [unescape_data_cons_lit c hc, hts.1]
      · simp only [List.map_cons, List.flatten_cons, EscTok.render, EscTok.value,
          List.singleton_append, List.cons_append, List.nil_append,
          List.append_assoc]
        rw [unescape_data_cons_lit c hc, hts.2]
    | esc b =>
      refine ⟨?_, ?_⟩
      · simp only [List.map_cons, List.flatten_cons, EscTok.render, EscTok.value,
          List.cons_append, List.nil_append]
        rw [unescape_data_cons_esc, hts.1]
      · simp only [List.map_cons, List.flatten_cons, EscTok.render, EscTok.value,
          List.cons_append, List.nil_append]
        rw [unescape_data_cons_esc, hts.2]

/-- C8 witness: a literal byte followed by an escaped byte, with and without
a trailing lone escape byte. -/
theorem unescape_token_map_check :
    (∀ t ∈ ([EscTok.lit 0x44, EscTok.esc 0x5E] : List EscTok), t.good = true) ∧
    (unescape_data ((([EscTok.lit 0x44, EscTok.esc 0x5E] : List EscTok).map
          EscTok.render).flatten)
        = ([EscTok.lit 0x44, EscTok.esc 0x5E] : List EscTok).map EscTok.value ∧
      unescape_data ((([EscTok.lit 0x44, EscTok.esc 0x5E] : List EscTok).map
          EscTok.render).flatten ++ [0x7D])
        = ([EscTok.lit 0x44, EscTok.esc 0x5E] : List EscTok).map EscTok.value) :=
  ⟨by decide, unescape_token_map _ (by decide)⟩

/-- C6 counterexample: for the 64-bit-address variant (tag `0x80`) the code
slices application data from byte 11 (address, RSSI and options bytes), not
from byte 10 as the claim's 8-byte-address-plus-one-status-byte header
implies: on a concrete 13-byte payload the two extractions differ. -/
theorem rx_header_width_counterexample :
    process_rx_packet [0x80, 1, 2, 3, 4, 5, 6, 7, 8, 9, 10, 0x41, 0x42]
        = some [0x41, 0x42] ∧
    claimHeaderExtract [0x80, 1, 2, 3, 4, 5, 6, 7, 8, 9, 10, 0x41, 0x42]
        = some [10, 0x41, 0x42] ∧
    process_rx_packet [0x80, 1, 2, 3, 4, 5, 6, 7, 8, 9, 10, 0x41, 0x42]
        ≠ claimHeaderExtract [0x80, 1, 2, 3, 4, 5, 6, 7, 8, 9, 10, 0x41, 0x42] := by
  decide

/-- C6 (amended): dispatch on the first payload byte returns exactly the
bytes after the code's headers — 8-byte address plus RSSI plus options for
`0x80` (data from byte 11), 2-byte address plus RSSI plus options for `0x81`
(data from byte 5), 8-byte address plus 2-byte network address plus options
for `0x90` (data from byte 12) — and a payload shorter than its tag's
minimum yields `none` without a fatal error. -/
theorem rx_header_extraction (a8 n2 d : List Nat) (r o : Nat)
    (h8 : a8.length = 8) (h2 : n2.length = 2) :
    process_rx_packet (0x90 :: (a8 ++ n2 ++ o :: d)) = some d ∧
    process_rx_packet (0x80 :: (a8 ++ r :: o :: d)) = some d ∧
    process_rx_packet (0x81 :: (n2 ++ r :: o :: d)) = some d ∧
    (∀ tl : List Nat, tl.length < 11 → process_rx_packet (0x90 :: tl) = none) ∧
    (∀ tl : List Nat, tl.length < 10 → process_rx_packet (0x80 :: tl) = none) ∧
    (∀ tl : List Nat, tl.length < 4 → process_rx_packet (0x81 :: tl) = none) := by
  refine ⟨?_, ?_, ?_, ?_, ?_, ?_⟩
  · have hsplit : (0x90 : Nat) :: (a8 ++ n2 ++ o :: d)
        = ((0x90 : Nat) :: (a8 ++ (n2 ++ [o]))) ++ d := by simp
    have hhead : ((0x90 : Nat) :: (a8 ++ (n2 ++ [o]))).length = 12 := by
      simp [h8, h2]
    rw [process_rx_packet_cons, if_pos rfl,
      if_neg (by simp only [List.length_cons, List.length_append, h8, h2]; omega),
      hsplit, ← hhead, List.drop_left]
  · have hsplit : (0x80 : Nat) :: (a8 ++ r :: o :: d)
        = ((0x80 : Nat) :: (a8 ++ [r, o])) ++ d := by simp
    have hhead : ((0x80 : Nat) :: (a8 ++ [r, o])).length = 11 := by
      simp [h8]
    rw [process_rx_packet_cons, if_neg (by omega),
      if_neg (by omega), if_pos rfl,
      if_neg (by simp only [List.length_cons, List.length_append, h8]; omega),
      hsplit, ← hhead, List.drop_left]
  · have hsplit : (0x81 : Nat) :: (n2 ++ r :: o :: d)
        = ((0x81 : Nat) :: (n2 ++ [r, o])) ++ d := by simp
    have hhead : ((0x81 : Nat) :: (n2 ++ [r, o])).length = 5 := by
      simp [h2]
    rw [process_rx_packet_cons, if_neg (by omega), if_pos rfl,
      if_neg (by simp only [List.length_cons, List.length_append, h2]; omega),
      hsplit, ← hhead, List.drop_left]
  · intro tl htl
    rw [process_rx_packet_cons, if_pos rfl,
      if_pos (by simp only [List.length_cons]; omega)]
  · intro tl htl
    rw [process_rx_packet_cons, if_neg (by omega), if_neg (by omega), if_pos rfl,
      if_pos (by simp only [List.length_cons]; omega)]
  · intro tl htl
    rw [process_rx_packet_cons, if_neg (by omega), if_pos rfl,
      if_pos (by simp only [List.length_cons]; omega)]

/-- C6 witness: concrete addresses, RSSI/options bytes and data. -/
theorem rx_header_extraction_check :
    ([1, 2, 3, 4, 5, 6, 7, 8] : List Nat).length = 8 ∧
    ([9, 10] : List Nat).length = 2 ∧
    (process_rx_packet (0x90 :: ([1, 2, 3, 4, 5, 6, 7, 8] ++ [9, 10] ++ 6 :: [0x41]))
        = some [0x41] ∧
      process_rx_packet (0x80 :: ([1, 2, 3, 4, 5, 6, 7, 8] ++ 5 :: 6 :: [0x41]))
        = some [0x41] ∧
      process_rx_packet (0x81 :: ([9, 10] ++ 5 :: 6 :: [0x41])) = some [0x41] ∧
      (∀ tl : List Nat, tl.length < 11 → process_rx_packet (0x90 :: tl) = none) ∧
      (∀ tl : List Nat, tl.length < 10 → process_rx_packet (0x80 :: tl) = none) ∧
      (∀ tl : List Nat, tl.length < 4 → process_rx_packet (0x81 :: tl) = none)) :=
  ⟨by decide, by decide,
    rx_header_extraction [1, 2, 3, 4, 5, 6, 7, 8] [9, 10] [0x41] 5 6
      (by decide) (by decide)⟩

/-! ## Aggregator hand-off: conservation under every interleaving -/

theorem aggStep_total (st : AggState) (a : AggAction) (r : Reading) :
    (aggStep st a).queue.count r + (aggStep st a).buffer.count r
        + ((aggStep st a).flushes.map (fun b => b.count r)).sum
      = st.queue.count r + st.buffer.count r
        + (st.flushes.map (fun b => b.count r)).sum
        + (if a = AggAction.record r then 1 else 0) := by
  cases a with
  | record q =>
    by_cases hq : q = r
    · subst hq
      simp only [aggStep, List.count_append, if_pos rfl]
      simp only [List.count_cons, List.count_nil, beq_iff_eq]
      omega
    · have hact : (if AggAction.record q = AggAction.record r then (1 : ℕ) else 0) = 0 := by
        simp [hq]
      rw [hact]
      simp only [aggStep, List.count_append, List.count_cons, List.count_nil,
        beq_iff_eq]
      simp only [if_neg hq]
      omega
  | drainOne =>
    have hact : (if AggAction.drainOne = AggAction.record r then (1 : ℕ) else 0) = 0 := by
      simp
    rw [hact]
    cases hqv : st.queue with
    | nil => simp [aggStep, hqv]
    | cons q rest =>
      simp only [aggStep, hqv, List.count_append, List.count_cons, List.count_nil,
        beq_iff_eq]
      omega
  | flush =>
    have hact : (if AggAction.flush = AggAction.record r then (1 : ℕ) else 0) = 0 := by
      simp
    rw [hact]
    by_cases hb : st.buffer = []
    · simp [aggStep, hb]
    · simp only [aggStep, if_neg hb, List.map_append, List.sum_append,
        List.map_cons, List.map_nil, List.sum_cons, List.sum_nil, List.count_nil]
      omega

theorem aggFold_total : ∀ (acts : List AggAction) (st : AggState) (r : Reading),
    ((acts.foldl aggStep st).queue.count r + (acts.foldl aggStep st).buffer.count r
        + ((acts.foldl aggStep st).flushes.map (fun b => b.count r)).sum)
      = (st.queue.count r + st.buffer.count r
          + (st.flushes.map (fun b => b.count r)).sum)
        + acts.count (AggAction.record r) := by
  intro acts
  induction acts with
  | nil => intro st r; simp
  | cons a acts ih =>
    intro st r
    simp only [List.foldl_cons, List.count_cons]
    rw [ih (aggStep st a) r, aggStep_total]
    simp only [beq_iff_eq]
    omega

/-- C3: in every interleaving of atomic `record` (queue put), `drainOne`
(queue get into the upload thread's buffer) and `flush` (average and clear
the buffer) operations, the number of times a reading was recorded equals
its total multiplicity across the queue, the buffer and the flushed batches:
no recorded reading is silently dropped, none is counted in two flushes, and
a reading that has been flushed lies in exactly one flushed batch. -/
theorem agg_no_loss_no_duplication (acts : List AggAction) (r : Reading) :
    countRecord acts r
      = (aggRun acts).queue.count r + (aggRun acts).buffer.count r
        + flushCount (aggRun acts) r := by
  have h := aggFold_total acts aggInit r
  simp only [aggInit, List.count_nil, List.map_nil, List.sum_nil] at h
  simp only [countRecord, aggRun, flushCount, aggInit]
  omega

/-! ## Rate-limited forwarder -/

/-- C7: the stored `last_update_time` is advanced (to the post-call clock
reading) exactly when the upstream call returns a non-zero response; on a
zero response or an exception it is exactly unchanged, so a subsequent
attempt is throttled no further than before the failed call. -/
theorem send_failure_keeps_clock (lastUpdate now tEnd : ℚ) (oc : UpdateOutcome) :
    (send_data lastUpdate now oc tEnd).2.1
      = if isSuccess oc then tEnd else lastUpdate := by
  cases oc with
  | exc => rfl
  | resp r =>
    by_cases hr : r = 0
    · subst hr; rfl
    · simp [send_data, isSuccess, hr]

/-- C9 counterexample: the forwarder's configured minimum inter-send
interval is 20 seconds, which is not the 15-second flush interval of the
upload loop. -/
theorem min_interval_not_flush_interval :
    min_interval = 20 ∧ flush_interval = 15 ∧ min_interval ≠ flush_interval := by
  refine ⟨rfl, rfl, ?_⟩
  norm_num [min_interval, flush_interval]

/-- C9 (amended): the minimum inter-send interval is 20 s (not the 15 s
flush interval); before sending, if less than 20 s has elapsed since the
last recorded send, `send_data` sleeps exactly the remaining time — the wait
ends exactly at `max now (lastUpdate + 20)` — and otherwise does not sleep.
-/
theorem send_wait_exact (lastUpdate now tEnd : ℚ) (oc : UpdateOutcome) :
    now + sendWait lastUpdate now = max now (lastUpdate + min_interval) ∧
    (send_data lastUpdate now oc tEnd).2.2 = sendWait lastUpdate now ∧
    min_interval = 20 ∧ flush_interval = 15 := by
  refine ⟨?_, ?_, rfl, rfl⟩
  · unfold sendWait
    split_ifs with h
    · rw [max_eq_right (by linarith)]
      ring
    · rw [max_eq_left (by linarith)]
      ring
  · cases oc with
    | exc => rfl
    | resp r => by_cases hr : r = 0 <;> simp [send_data, hr]

/-! ## Duplicate suppression -/

theorem dedupRunSt_append (ms1 ms2 : List Msg) (st : DedupState) :
    dedupRunSt st (ms1 ++ ms2)
      = ((dedupRunSt st ms1).1 ++ (dedupRunSt (dedupRunSt st ms1).2 ms2).1,
         (dedupRunSt (dedupRunSt st ms1).2 ms2).2) := by
  induction ms1 generalizing st with
  | nil => simp [dedupRunSt]
  | cons m ms1 ih =>
    obtain ⟨s, p, t⟩ := m
    simp only [List.cons_append, dedupRunSt, ih]
    by_cases hacc : (dedupStep st s p t).1 <;> simp [hacc, ih]

theorem dedupRunSt_single (st : DedupState) (s : String) (pl : List Nat) (t : ℚ) :
    dedupRunSt st [(s, pl, t)]
      = (if (dedupStep st s pl t).1 then [(s, pl, t)] else [],
         (dedupStep st s pl t).2) := by
  simp [dedupRunSt]

theorem dedupStep_empty (s : String) (pl : List Nat) (t : ℚ) :
    dedupStep emptyDedup s pl t = (true, ⟨[(s, pl)], [(s, t)]⟩) := by
  rw [dedupStep, if_neg]
  · rfl
  · simp [dedupCheck, emptyDedup]

theorem periodicMsgs_succ (s : String) (p : List Nat) (n : Nat) :
    periodicMsgs s p (n + 1)
      = periodicMsgs s p n ++ [(s, p, (9 / 10 : ℚ) * (n : ℕ))] := by
  simp only [periodicMsgs, List.range_succ, List.map_append, List.map_cons,
    List.map_nil]

/-- One step of the deduplicator against a state whose stored entry for the
sender is known. -/
theorem dedupStep_known (st : DedupState) (s : String) (p pl : List Nat)
    (t0 t : ℚ) (hid : st.lastIds.lookup s = some p)
    (htm : st.lastTimes.lookup s = some t0) :
    dedupStep st s pl t
      = if p = pl ∧ t - t0 < 1 then (false, st)
        else (true, ⟨(s, pl) :: st.lastIds, (s, t) :: st.lastTimes⟩) := by
  rw [dedupStep, dedupCheck, hid, htm]
  by_cases hc : p = pl ∧ t - t0 < 1
  · rw [if_pos hc, if_pos (by simpa using hc)]
  · rw [if_neg hc, if_neg (by simpa using hc)]

/-- The accepted count and final per-sender entry for streams of identical
messages every 0.9 s: stated for odd (`2m+1`) and even (`2m+2`) stream
lengths, proved by one induction on `m`. -/
theorem periodic_pairs (s : String) (p : List Nat) : ∀ m : Nat,
    ((dedupRunSt emptyDedup (periodicMsgs s p (2 * m + 1))).1.length = m + 1 ∧
     (dedupRunSt emptyDedup (periodicMsgs s p (2 * m + 1))).2.lastIds.lookup s
        = some p ∧
     (dedupRunSt emptyDedup (periodicMsgs s p (2 * m + 1))).2.lastTimes.lookup s
        = some ((9 / 10 : ℚ) * ((2 * m : ℕ) : ℚ))) ∧
    ((dedupRunSt emptyDedup (periodicMsgs s p (2 * m + 2))).1.length = m + 1 ∧
     (dedupRunSt emptyDedup (periodicMsgs s p (2 * m + 2))).2.lastIds.lookup s
        = some p ∧
     (dedupRunSt emptyDedup (periodicMsgs s p (2 * m + 2))).2.lastTimes.lookup s
        = some ((9 / 10 : ℚ) * ((2 * m : ℕ) : ℚ))) := by
  intro m
  induction m with
  | zero =>
    have h0 : periodicMsgs s p 0 = [] := by simp [periodicMsgs]
    have hodd : (dedupRunSt emptyDedup (periodicMsgs s p (2 * 0 + 1))).1.length = 0 + 1 ∧
        (dedupRunSt emptyDedup (periodicMsgs s p (2 * 0 + 1))).2.lastIds.lookup s
          = some p ∧
        (dedupRunSt emptyDedup (periodicMsgs s p (2 * 0 + 1))).2.lastTimes.lookup s
          = some ((9 / 10 : ℚ) * ((2 * 0 : ℕ) : ℚ)) := by
      rw [show 2 * 0 + 1 = 0 + 1 from rfl, periodicMsgs_succ, h0, List.nil_append,
        dedupRunSt_single, dedupStep_empty]
      refine ⟨by simp, by simp [List.lookup], by norm_num [List.lookup]⟩
    refine ⟨hodd, ?_⟩
    obtain ⟨hlen', hid', htm'⟩ := hodd
    have hsupp : dedupStep (dedupRunSt emptyDedup (periodicMsgs s p (2 * 0 + 1))).2
        s p ((9 / 10 : ℚ) * ((2 * 0 + 1 : ℕ) : ℚ)) =
        (false, (dedupRunSt emptyDedup (periodicMsgs s p (2 * 0 + 1))).2) := by
      rw [dedupStep_known _ _ _ _ _ _ hid' htm', if_pos ⟨rfl, by push_cast; norm_num⟩]
    rw [show 2 * 0 + 2 = (2 * 0 + 1) + 1 from rfl, periodicMsgs_succ,
      dedupRunSt_append, dedupRunSt_single, hsupp]
    refine ⟨by simp [hlen'], by simpa using hid', by simpa using htm'⟩
  | succ m ih =>
    obtain ⟨-, hlen, hid, htm⟩ := ih
    have hacc : dedupStep (dedupRunSt emptyDedup (periodicMsgs s p (2 * m + 2))).2
        s p ((9 / 10 : ℚ) * ((2 * m + 2 : ℕ) : ℚ)) =
        (true,
          ⟨(s, p) :: (dedupRunSt emptyDedup (periodicMsgs s p (2 * m + 2))).2.lastIds,
           (s, (9 / 10 : ℚ) * ((2 * m + 2 : ℕ) : ℚ)) ::
             (dedupRunSt emptyDedup (periodicMsgs s p (2 * m + 2))).2.lastTimes⟩) := by
      rw [dedupStep_known _ _ _ _ _ _ hid htm, if_neg]
      rintro ⟨-, h2⟩
      push_cast at h2
      linarith
    have hodd : (dedupRunSt emptyDedup (periodicMsgs s p (2 * (m + 1) + 1))).1.length
          = (m + 1) + 1 ∧
        (dedupRunSt emptyDedup (periodicMsgs s p (2 * (m + 1) + 1))).2.lastIds.lookup s
          = some p ∧
        (dedupRunSt emptyDedup (periodicMsgs s p (2 * (m + 1) + 1))).2.lastTimes.lookup s
          = some ((9 / 10 : ℚ) * ((2 * (m + 1) : ℕ) : ℚ)) := by
      rw [show 2 * (m + 1) + 1 = (2 * m + 2) + 1 from by ring, periodicMsgs_succ,
        dedupRunSt_append, dedupRunSt_single, hacc]
      refine ⟨by simp [hlen], by simp [List.lookup], ?_⟩
      simp only [List.lookup, beq_self_eq_true]
      have hq : (9 / 10 : ℚ) * ((2 * m + 2 : ℕ) : ℚ)
          = (9 / 10 : ℚ) * ((2 * (m + 1) : ℕ) : ℚ) := by
        push_cast
        ring
      rw [hq]
    refine ⟨hodd, ?_⟩
    obtain ⟨hlen', hid', htm'⟩ := hodd
    have hsupp : dedupStep (dedupRunSt emptyDedup (periodicMsgs s p (2 * (m + 1) + 1))).2
        s p ((9 / 10 : ℚ) * ((2 * (m + 1) + 1 : ℕ) : ℚ)) =
        (false, (dedupRunSt emptyDedup (periodicMsgs s p (2 * (m + 1) + 1))).2) := by
      rw [dedupStep_known _ _ _ _ _ _ hid' htm', if_pos ⟨rfl, by push_cast; linarith⟩]
    rw [show 2 * (m + 1) + 2 = (2 * (m + 1) + 1) + 1 from by ring, periodicMsgs_succ,
      dedupRunSt_append, dedupRunSt_single, hsupp]
    refine ⟨by simp [hlen'], by simpa using hid', by simpa using htm'⟩

/-- Accepted count for the periodic identical stream, for every length. -/
theorem periodic_count (s : String) (p : List Nat) (n : Nat) :
    (dedupAccepted (periodicMsgs s p n)).length = (n + 1) / 2 := by
  rcases n with _ | n
  · simp [periodicMsgs, dedupAccepted, dedupRunSt]
  · rcases Nat.even_or_odd n with ⟨m, hm⟩ | ⟨m, hm⟩
    · have hn : n + 1 = 2 * m + 1 := by omega
      rw [hn]
      have := ((periodic_pairs s p m).1).1
      rw [dedupAccepted, this]
      omega
    · have hn : n + 1 = 2 * m + 2 := by omega
      rw [hn]
      have := ((periodic_pairs s p m).2).1
      rw [dedupAccepted, this]
      omega

/-- C4: the deduplicator suppresses a message exactly when the sender has a
retained entry whose bytes equal the incoming bytes and which arrived
strictly less than 1.0 second earlier; consequently two deliveries yield one
accepted message when sender and bytes coincide and the gap is strictly
below one second, and two accepted messages otherwise (different sender,
different bytes, or a gap of one second or more). -/
theorem dedup_policy :
    (∀ (st : DedupState) (s : String) (pl : List Nat) (t : ℚ),
      dedupCheck st s pl t = true
        ↔ ∃ p0 t0, st.lastIds.lookup s = some p0 ∧ st.lastTimes.lookup s = some t0 ∧
            p0 = pl ∧ t - t0 < 1) ∧
    (∀ (s1 s2 : String) (p q : List Nat) (t1 t2 : ℚ),
      (dedupAccepted [(s1, p, t1), (s2, q, t2)]).length
        = if s1 = s2 ∧ p = q ∧ t2 - t1 < 1 then 1 else 2) := by
  constructor
  · intro st s pl t
    rcases h1 : st.lastIds.lookup s with _ | p0 <;>
      rcases h2 : st.lastTimes.lookup s with _ | t0 <;>
        simp [dedupCheck, h1, h2]
  · intro s1 s2 p q t1 t2
    by_cases hss : s1 = s2
    · subst hss
      have hid : (⟨[(s1, p)], [(s1, t1)]⟩ : DedupState).lastIds.lookup s1 = some p := by
        simp [List.lookup]
      have htm : (⟨[(s1, p)], [(s1, t1)]⟩ : DedupState).lastTimes.lookup s1
          = some t1 := by
        simp [List.lookup]
      have hstep := dedupStep_known ⟨[(s1, p)], [(s1, t1)]⟩ s1 p q t1 t2 hid htm
      by_cases hc : p = q ∧ t2 - t1 < 1
      · rw [if_pos ⟨rfl, hc⟩]
        rw [if_pos hc] at hstep
        simp [dedupAccepted, dedupRunSt, dedupStep_empty, hstep]
      · rw [if_neg (by rintro ⟨-, h⟩; exact hc h)]
        rw [if_neg hc] at hstep
        simp [dedupAccepted, dedupRunSt, dedupStep_empty, hstep]
    · rw [if_neg (by rintro ⟨h, -⟩; exact hss h)]
      have hbeq : (s2 == s1) = false := beq_eq_false_iff_ne.mpr (fun h => hss h.symm)
      have hck : dedupCheck ⟨[(s1, p)], [(s1, t1)]⟩ s2 q t2 = false := by
        simp [dedupCheck, List.lookup, hbeq]
      have hstep : dedupStep ⟨[(s1, p)], [(s1, t1)]⟩ s2 q t2
          = (true, ⟨(s2, q) :: [(s1, p)], (s2, t2) :: [(s1, t1)]⟩) := by
        rw [dedupStep, hck]
        simp
      simp [dedupAccepted, dedupRunSt, dedupStep_empty, hstep]

/-- C10: a suppressed message leaves the sender's stored bytes and timestamp
exactly unchanged (they are updated only when a message is accepted), so the
1-second window is always measured from the most recent accepted message;
consequently an unbroken stream of byte-identical messages arriving every
0.9 seconds is never suppressed indefinitely: of the first `n` messages
exactly `(n+1)/2` (the even-indexed ones, one per 1.8 seconds) are accepted. -/
theorem dedup_suppressed_keeps_state (st : DedupState) (s : String) (pl : List Nat)
    (t : ℚ) (h : dedupCheck st s pl t = true) :
    dedupStep st s pl t = (false, st) ∧
    (∀ (s2 : String) (p2 : List Nat) (n : Nat),
      (dedupAccepted (periodicMsgs s2 p2 n)).length = (n + 1) / 2) := by
  refine ⟨?_, fun s2 p2 n => periodic_count s2 p2 n⟩
  rw [dedupStep, if_pos h]

/-- C10 witness: a retained byte-identical message observed again at the
same instant is suppressed with the state untouched. -/
theorem dedup_suppressed_keeps_state_check :
    dedupCheck ⟨[("A", [1])], [("A", 0)]⟩ "A" [1] 0 = true ∧
    (dedupStep ⟨[("A", [1])], [("A", 0)]⟩ "A" [1] 0
        = (false, ⟨[("A", [1])], [("A", 0)]⟩) ∧
      ∀ (s2 : String) (p2 : List Nat) (n : Nat),
        (dedupAccepted (periodicMsgs s2 p2 n)).length = (n + 1) / 2) :=
  ⟨by simp [dedupCheck, List.lookup],
   dedup_suppressed_keeps_state _ _ _ _ (by simp [dedupCheck, List.lookup])⟩

/-! ## Reading parser: splitting lemmas -/

theorem splitOnChar_ne_nil (sep : Char) : ∀ cs : List Char, splitOnChar sep cs ≠ [] := by
  intro cs
  induction cs with
  | nil => simp [splitOnChar]
  | cons c rest ih =>
    simp only [splitOnChar]
    rcases h : splitOnChar sep rest with _ | ⟨g, gs⟩
    · exact absurd h ih
    · split_ifs <;> simp

theorem splitOnChar_cons_sep (sep : Char) (ys : List Char) :
    splitOnChar sep (sep :: ys) = [] :: splitOnChar sep ys := by
  simp only [splitOnChar]
  rcases h : splitOnChar sep ys with _ | ⟨g, gs⟩
  · exact absurd h (splitOnChar_ne_nil sep ys)
  · simp

theorem splitOnChar_cons_ne (sep c : Char) (hc : c ≠ sep) (ys g : List Char)
    (gs : List (List Char)) (hs : splitOnChar sep ys = g :: gs) :
    splitOnChar sep (c :: ys) = (c :: g) :: gs := by
  simp only [splitOnChar, hs]
  simp [hc]

theorem splitOnChar_append_no_sep (sep : Char) :
    ∀ (xs ys : List Char), sep ∉ xs →
      ∀ (g : List Char) (gs : List (List Char)), splitOnChar sep ys = g :: gs →
        splitOnChar sep (xs ++ ys) = (xs ++ g) :: gs := by
  intro xs
  induction xs with
  | nil =>
    intro ys _ g gs hsplit
    simpa using hsplit
  | cons c xs ih =>
    intro ys h g gs hsplit
    have hc : c ≠ sep := fun hc => h (by simp [hc])
    have hrec := ih ys (fun hm => h (by simp [hm])) g gs hsplit
    have := splitOnChar_cons_ne sep c hc (xs ++ ys) (xs ++ g) gs hrec
    simpa using this

theorem splitOnChar_no_sep (sep : Char) (xs : List Char) (h : sep ∉ xs) :
    splitOnChar sep xs = [xs] := by
  have := splitOnChar_append_no_sep sep xs [] h [] [] rfl
  simpa using this

/-- C5 counterexample: the string with the last two fields swapped — which
the claim says the Reading Parser must reject — is accepted, with the values
taken positionally (humidity gets the `PPM`-labelled 1, CO2 gets the
`HUM`-labelled 28): the field labels are never checked. -/
theorem parse_swapped_fields_counterexample :
    parse_data "DATA:TEMP:26,PPM:1,HUM:28".toList = some (26, 1, 28) ∧
    ¬ parse_data "DATA:TEMP:26,PPM:1,HUM:28".toList = none := by decide

/-- C5 (amended): `parse_data` validates only the literal `DATA:` prefix and
the numeric parse of the three positional sub-fields
(`parts[0].split(':')[2]`, `parts[1].split(':')[1]`,
`parts[2].split(':')[1]`); the labels are arbitrary, so out-of-order or
mislabelled fields with numeric values are accepted with values assigned by
position.  Missing fields, non-numeric values or a missing prefix yield
`None`, and no exception escapes (the translation is a total function). -/
theorem parse_ignores_labels (L1 L2 L3 v1 v2 v3 : List Char) (q1 q2 q3 : ℚ)
    (hL1 : plainField L1 = true) (hL2 : plainField L2 = true)
    (hL3 : plainField L3 = true) (hv1 : plainField v1 = true)
    (hv2 : plainField v2 = true) (hv3 : plainField v3 = true)
    (hq1 : pyFloat v1 = some q1) (hq2 : pyFloat v2 = some q2)
    (hq3 : pyFloat v3 = some q3) :
    parse_data ("DATA:".toList
        ++ (L1 ++ (':' :: (v1 ++ (',' :: (L2 ++ (':' :: (v2
          ++ (',' :: (L3 ++ ':' :: v3))))))))))
      = some (q1, q2, q3) := by
  obtain ⟨hL1c, hL1m⟩ : ':' ∉ L1 ∧ ',' ∉ L1 := by simpa [plainField] using hL1
  obtain ⟨hL2c, hL2m⟩ : ':' ∉ L2 ∧ ',' ∉ L2 := by simpa [plainField] using hL2
  obtain ⟨hL3c, hL3m⟩ : ':' ∉ L3 ∧ ',' ∉ L3 := by simpa [plainField] using hL3
  obtain ⟨hv1c, hv1m⟩ : ':' ∉ v1 ∧ ',' ∉ v1 := by simpa [plainField] using hv1
  obtain ⟨hv2c, hv2m⟩ : ':' ∉ v2 ∧ ',' ∉ v2 := by simpa [plainField] using hv2
  obtain ⟨hv3c, hv3m⟩ : ':' ∉ v3 ∧ ',' ∉ v3 := by simpa [plainField] using hv3
  have hnoC : ∀ (L v : List Char), ',' ∉ L → ',' ∉ v → ',' ∉ (L ++ ':' :: v) := by
    intro L v hL hv hmem
    rcases List.mem_append.mp hmem with h | h
    · exact hL h
    · rcases List.mem_cons.mp h with h | h
      · exact absurd h (by decide)
      · exact hv h
  -- comma split: three groups
  have s3 : splitOnChar ',' (L3 ++ ':' :: v3) = [L3 ++ ':' :: v3] :=
    splitOnChar_no_sep _ _ (hnoC L3 v3 hL3m hv3m)
  have s2 : splitOnChar ',' (L2 ++ (':' :: (v2 ++ (',' :: (L3 ++ ':' :: v3)))))
      = (L2 ++ ':' :: v2) :: [L3 ++ ':' :: v3] := by
    have t1 : splitOnChar ',' (',' :: (L3 ++ ':' :: v3))
        = [] :: [L3 ++ ':' :: v3] := by
      rw [splitOnChar_cons_sep, s3]
    have t2 := splitOnChar_append_no_sep ',' v2 _ hv2m _ _ t1
    rw [List.append_nil] at t2
    have t3 := splitOnChar_cons_ne ',' ':' (by decide) _ _ _ t2
    exact splitOnChar_append_no_sep ',' L2 _ hL2m _ _ t3
  have s1 : splitOnChar ',' ("DATA:".toList
        ++ (L1 ++ (':' :: (v1 ++ (',' :: (L2 ++ (':' :: (v2
          ++ (',' :: (L3 ++ ':' :: v3))))))))))
      = ("DATA:".toList ++ (L1 ++ ':' :: v1))
        :: (L2 ++ ':' :: v2) :: [L3 ++ ':' :: v3] := by
    have t1 : splitOnChar ','
        (',' :: (L2 ++ (':' :: (v2 ++ (',' :: (L3 ++ ':' :: v3))))))
        = [] :: (L2 ++ ':' :: v2) :: [L3 ++ ':' :: v3] := by
      rw [splitOnChar_cons_sep, s2]
    have t2 := splitOnChar_append_no_sep ',' v1 _ hv1m _ _ t1
    rw [List.append_nil] at t2
    have t3 := splitOnChar_cons_ne ',' ':' (by decide) _ _ _ t2
    have t4 := splitOnChar_append_no_sep ',' L1 _ hL1m _ _ t3
    exact splitOnChar_append_no_sep ',' "DATA:".toList _ (by decide) _ _ t4
  -- colon split of each group
  have sA : splitOnChar ':' ("DATA:".toList ++ (L1 ++ ':' :: v1))
      = ['D', 'A', 'T', 'A'] :: L1 :: [v1] := by
    have u1 : splitOnChar ':' v1 = [v1] := splitOnChar_no_sep _ _ hv1c
    have u2 : splitOnChar ':' (':' :: v1) = [] :: [v1] := by
      rw [splitOnChar_cons_sep, u1]
    have u3 := splitOnChar_append_no_sep ':' L1 _ hL1c _ _ u2
    rw [List.append_nil] at u3
    have w1 : splitOnChar ':' (':' :: (L1 ++ ':' :: v1)) = [] :: L1 :: [v1] := by
      rw [splitOnChar_cons_sep, u3]
    have w2 := splitOnChar_cons_ne ':' 'A' (by decide) _ _ _ w1
    have w3 := splitOnChar_cons_ne ':' 'T' (by decide) _ _ _ w2
    have w4 := splitOnChar_cons_ne ':' 'A' (by decide) _ _ _ w3
    have w5 := splitOnChar_cons_ne ':' 'D' (by decide) _ _ _ w4
    have hdata : "DATA:".toList = 'D' :: 'A' :: 'T' :: 'A' :: [':'] := rfl
    rw [hdata]
    simpa using w5
  have sB : splitOnChar ':' (L2 ++ ':' :: v2) = L2 :: [v2] := by
    have u1 : splitOnChar ':' v2 = [v2] := splitOnChar_no_sep _ _ hv2c
    have u2 : splitOnChar ':' (':' :: v2) = [] :: [v2] := by
      rw [splitOnChar_cons_sep, u1]
    have u3 := splitOnChar_append_no_sep ':' L2 _ hL2c _ _ u2
    rw [List.append_nil] at u3
    exact u3
  have sC : splitOnChar ':' (L3 ++ ':' :: v3) = L3 :: [v3] := by
    have u1 : splitOnChar ':' v3 = [v3] := splitOnChar_no_sep _ _ hv3c
    have u2 : splitOnChar ':' (':' :: v3) = [] :: [v3] := by
      rw [splitOnChar_cons_sep, u1]
    have u3 := splitOnChar_append_no_sep ':' L3 _ hL3c _ _ u2
    rw [List.append_nil] at u3
    exact u3
  have hpre : startsWithChars "DATA:".toList ("DATA:".toList
      ++ (L1 ++ (':' :: (v1 ++ (',' :: (L2 ++ (':' :: (v2
        ++ (',' :: (L3 ++ ':' :: v3)))))))))) = true := by
    simp only [startsWithChars, decide_eq_true_eq]
    exact List.take_left _ _
  simp only [parse_data, hpre, if_true, s1, sA, sB, sC,
    List.getElem?_cons_zero, List.getElem?_cons_succ, hq1, hq2, hq3]

/-- C5 witness: the swapped-field layout with arbitrary labels and numeric
values parses to the positional values. -/
theorem parse_ignores_labels_check :
    (plainField "TEMP".toList = true ∧ plainField "PPM".toList = true ∧
      plainField "HUM".toList = true ∧ plainField "26".toList = true ∧
      plainField "1".toList = true ∧ plainField "28".toList = true ∧
      pyFloat "26".toList = some 26 ∧ pyFloat "1".toList = some 1 ∧
      pyFloat "28".toList = some 28) ∧
    parse_data ("DATA:".toList
        ++ ("TEMP".toList ++ (':' :: ("26".toList ++ (',' :: ("PPM".toList
          ++ (':' :: ("1".toList
            ++ (',' :: ("HUM".toList ++ ':' :: "28".toList))))))))))
      = some (26, 1, 28) :=
  ⟨by decide,
    parse_ignores_labels "TEMP".toList "PPM".toList "HUM".toList
      "26".toList "1".toList "28".toList 26 1 28
      (by decide) (by decide) (by decide) (by decide) (by decide) (by decide)
      (by decide) (by decide) (by decide)⟩

end COMonGateway
